import Mathlib

/-!
Shallow embedding of the `localstore` package (a directory-backed key-value
store with an in-memory sorted index of filenames) and proofs of the spec's
claims about it.

The store's external collaborators (filesystem primitives, the pluggable
codec, the configured comparator) are modelled as explicit parameters: each
operation takes the outcomes of its external calls as arguments and returns
the resulting error value and store state, mirroring the Go source
line by line.
-/

namespace LocalStore

/-! ## Filename encoding: `url.PathEscape(key) + ext` -/

/-- One step of Go's `path/filepath.Ext`: walk the characters of the name
from the end; stop at a path separator with no extension, or return the
suffix from the last dot. `rev` is the unscanned prefix reversed, `acc`
the scanned suffix in order. -/
def goExtAux : List Char → List Char → String
  | [], _ => ""
  | c :: rest, acc =>
    if c = '/' then ""
    else if c = '.' then String.mk (c :: acc)
    else goExtAux rest (c :: acc)

/-- Go's `filepath.Ext(name)`: the suffix starting at the final dot in the
final path element, or the empty string when there is no dot. -/
def goExt (name : String) : String :=
  goExtAux name.toList.reverse []

/-- Go's `url.shouldEscape(c, encodePathSegment)` on a byte value:
alphanumerics, `-_.~` and the sub-delims `$ & + : = @` stay unescaped;
`/ ; , ?` and every other byte are escaped. -/
def shouldEscapeSeg (n : Nat) : Bool :=
  if (97 ≤ n && n ≤ 122) || (65 ≤ n && n ≤ 90) || (48 ≤ n && n ≤ 57) then false
  else if n = 45 || n = 95 || n = 46 || n = 126 then false
  else if n = 36 || n = 38 || n = 43 || n = 58 || n = 61 || n = 64 then false
  else true

/-- Uppercase hexadecimal digit for a value below 16. -/
def hexDigit (n : Nat) : Char :=
  (['0', '1', '2', '3', '4', '5', '6', '7', '8', '9',
    'A', 'B', 'C', 'D', 'E', 'F']).getD n '0'

/-- Go's `url.PathEscape`: percent-encode the UTF-8 bytes of the string,
leaving path-segment-safe bytes as-is. -/
def pathEscape (s : String) : String :=
  String.join (s.toUTF8.toList.map (fun b =>
    let n := b.toNat
    if shouldEscapeSeg n then String.mk ['%', hexDigit (n / 16), hexDigit (n % 16)]
    else String.mk [Char.ofNat n]))

/-- The on-disk filename of a key: `url.PathEscape(key) + s.ext`
(`Get`, `Put` and `Delete` all compute this). -/
def fileName (ext key : String) : String :=
  pathEscape key ++ ext

/-! ## Binary search: Go's `sort.Search` and `sort.Find` -/

/-- Go's `sort.Search` loop: binary search on `[i, j)` for the least index
satisfying `f`, returning `j` when none does (assuming `f` is monotone). -/
def goSearch (f : Nat → Bool) (i j : Nat) : Nat :=
  if h : i < j then
    if f ((i + j) / 2) then goSearch f i ((i + j) / 2)
    else goSearch f ((i + j) / 2 + 1) j
  else i
termination_by j - i
decreasing_by
  · omega
  · omega

/-- Go's `sort.Find(n, cmp)`: position of the least index whose comparison
is `≤ 0`, and whether the element there compares equal. -/
def sortFind (n : Nat) (cmpf : Nat → Int) : Nat × Bool :=
  let i := goSearch (fun k => decide (cmpf k ≤ 0)) 0 n
  (i, decide (i < n ∧ cmpf i = 0))

/-- Placeholder name used by out-of-range `getD` reads that binary search
never actually performs. -/
def dummyName : String := ""

/-- The store's index lookup: `sort.Find(len(s.index), func(i int) int {
return s.comparator.Compare(name, s.index[i]) })`. -/
def findName (cmp : String → String → Int) (index : List String) (name : String) :
    Nat × Bool :=
  sortFind index.length (fun i => cmp name (index.getD i dummyName))

/-! ## Index mutation -/

/-- `append(s.index[:i], append([]string{name}, s.index[i:]...)...)`:
insert `name` at position `i`. -/
def insertAt (i : Nat) (name : String) (l : List String) : List String :=
  l.take i ++ name :: l.drop i

/-- `append(s.index[:i], s.index[i+1:]...)`: remove the entry at `i`. -/
def removeAt (i : Nat) (l : List String) : List String :=
  l.take i ++ l.drop (i + 1)

/-! ## The configured comparator -/

/-- The non-strict order induced by a comparator. -/
def cmpLe (cmp : String → String → Int) (a b : String) : Prop :=
  cmp a b ≤ 0

instance (cmp : String → String → Int) : DecidableRel (cmpLe cmp) :=
  fun a b => inferInstanceAs (Decidable (cmp a b ≤ 0))

/-- The index is sorted per the configured comparator (§3's sort
invariant): consecutive entries compare `≤ 0`. -/
def IdxSorted (cmp : String → String → Int) (l : List String) : Prop :=
  l.Pairwise (cmpLe cmp)

/-- A consistent, valid total order in the sense of §4.1: comparing equal
means equality, the order is antisymmetric in sign, and strictly
transitive. -/
structure ValidComparator (cmp : String → String → Int) : Prop where
  eq0 : ∀ a b, cmp a b = 0 ↔ a = b
  flip : ∀ a b, cmp a b < 0 ↔ cmp b a > 0
  trans : ∀ a b c, cmp a b < 0 → cmp b c < 0 → cmp a c < 0


/-! ## Store operations

Each operation is a pure function of the store state plus the outcomes of
its external calls (directory listing, file open/stat/remove, codec,
close). Type parameters: `V` values, `E` errors of the external layers,
`B` the byte-stream contents written by the encoder. -/

section Store

variable {V E B : Type}

/-- What `List` observes about one index entry's file: `files.Open` error,
`f.Stat()` error, a directory (skipped), a decode error, or a decoded
value. -/
inductive EntryOutcome (V E : Type) where
  | openErr (e : E)
  | statErr (e : E)
  | isDir
  | decodeErr (e : E)
  | val (v : V)

/-- The `List[T]` result struct of the Go source: values plus pagination
metadata. -/
structure GoList (V : Type) where
  values : List V
  offset : Int
  limit : Int
  total : Nat

/-- The loop `for i := offset; i < cap; i++` of `List`: reads
`s.index[i]`, skips directories, aborts on any open/stat/decode error.
`none` models the out-of-range panic of `s.index[i]` when `i` falls
outside the index. -/
def listLoop (fs : String → EntryOutcome V E) (index : List String)
    (cap : Int) (i : Int) (acc : List V) : Option (Except E (List V)) :=
  if hij : i < cap then
    if hr : 0 ≤ i ∧ i.toNat < index.length then
      match fs (index.get ⟨i.toNat, hr.2⟩) with
      | EntryOutcome.openErr e => some (Except.error e)
      | EntryOutcome.statErr e => some (Except.error e)
      | EntryOutcome.isDir => listLoop fs index cap (i + 1) acc
      | EntryOutcome.decodeErr e => some (Except.error e)
      | EntryOutcome.val v => listLoop fs index cap (i + 1) (acc ++ [v])
    else none
  else some (Except.ok acc)
termination_by (cap - i).toNat
decreasing_by
  · omega
  · omega

/-- The loop bound of `List`: `cap := limit; if cap < 0 { cap =
len(s.index) }` — the raw `limit` when nonnegative, the full index length
otherwise. -/
def capOf (index : List String) (limit : Int) : Int :=
  if limit < 0 then (index.length : Int) else limit

/-- `List(offset, limit)`: compute the loop bound, run the read loop from
`offset` to it, and on success build the result struct with
`Total = len(s.index)`. -/
def listGo (fs : String → EntryOutcome V E) (index : List String)
    (offset limit : Int) : Option (Except E (GoList V)) :=
  match listLoop fs index (capOf index limit) offset [] with
  | none => none
  | some (Except.error e) => some (Except.error e)
  | some (Except.ok vs) => some (Except.ok ⟨vs, offset, limit, index.length⟩)

/-- Modelled from the spec: `files.MustReadDirnames` belongs to the
external `files` library, whose `Must`-prefixed helpers perform the
operation best-effort and discard the error (the spec notes for
`Delete` that the `MustIsEmptyDir`-guarded pruning failure "is ignored");
on a failed directory read it returns no names. -/
def mustReadDirnames (r : Except E (List String)) : List String :=
  match r with
  | Except.ok names => names
  | Except.error _ => []

/-- `Load()`: read the directory names, keep those whose `filepath.Ext`
equals the configured extension, sort per the comparator
(`sort.Slice`), and replace the index. The Go function body ends in an
unconditional `return nil`. -/
def loadGo (cmp : String → String → Int) (ext : String)
    (index : List String) (dirRead : Except E (List String)) :
    Except E Unit × List String :=
  let names := mustReadDirnames dirRead
  let filtered := names.filter (fun name => goExt name == ext)
  (Except.ok (), List.insertionSort (cmpLe cmp) filtered)

/-- A `Get` failure: the `ErrNotExist` sentinel for a key absent from the
index, or an error propagated verbatim from open/decode. -/
inductive StoreErr (E : Type) where
  | notExist
  | err (e : E)

/-- Reading a file: opening succeeds with the stored content exactly when
the file exists, and fails with `eMiss` otherwise. -/
def readFS (fs : String → Option B) (eMiss : E) : String → Except E B :=
  fun n =>
    match fs n with
    | some b => Except.ok b
    | none => Except.error eMiss

/-- `Get(key)`: compute the filename, binary-search the index; absent keys
fail with `ErrNotExist`; otherwise open (`files.OpenFileReader`) and
decode, propagating either failure. -/
def getGo (cmp : String → String → Int) (ext : String)
    (dec : B → Except E V) (index : List String)
    (openR : String → Except E B) (key : String) : Except (StoreErr E) V :=
  let name := fileName ext key
  let fnd := findName cmp index name
  if fnd.2 then
    match openR name with
    | Except.error e => Except.error (StoreErr.err e)
    | Except.ok b =>
      match dec b with
      | Except.error e => Except.error (StoreErr.err e)
      | Except.ok v => Except.ok v
  else Except.error StoreErr.notExist

/-- `Put(key, value)`: open/create the file (`files.OpenFileWriter`),
encode into it, close it — the encode error takes priority, a close error
is surfaced when the encode succeeded — and only on full success
binary-search the index and insert the filename when absent. `junkB`
stands for the partial content left behind by a failed encode. Returns
(error value, new index, new file contents). -/
def putGo (cmp : String → String → Int) (ext : String) (enc : V → B)
    (junkB : B) (index : List String) (fs : String → Option B)
    (key : String) (v : V) (openE encE closeE : Option E) :
    Except E Unit × List String × (String → Option B) :=
  let name := fileName ext key
  match openE with
  | some e => (Except.error e, index, fs)
  | none =>
    let fs' := fun n =>
      if n = name then
        match encE with
        | none => some (enc v)
        | some _ => some junkB
      else fs n
    let errv : Option E :=
      match encE with
      | some e => some e
      | none => closeE
    match errv with
    | some e => (Except.error e, index, fs')
    | none =>
      let fnd := findName cmp index name
      (Except.ok (), (if fnd.2 then index else insertAt fnd.1 name index), fs')

/-- `Delete(key)`: compute the filename, binary-search the index; absent
keys succeed as a no-op; otherwise `files.Remove` the file — on failure
return the error with the index unchanged — and only after a successful
remove (and the discarded best-effort empty-directory prune, whose
outcome `emptyAfter` has no observable effect) remove the index entry. -/
def deleteGo (cmp : String → String → Int) (ext : String)
    (index : List String) (fs : String → Option B) (key : String)
    (removeE : Option E) (emptyAfter : Bool) :
    Except E Unit × List String × (String → Option B) :=
  let name := fileName ext key
  let fnd := findName cmp index name
  if fnd.2 then
    match removeE with
    | some e => (Except.error e, index, fs)
    | none =>
      let fs' := fun n => if n = name then none else fs n
      (Except.ok (), removeAt fnd.1 index, fs')
  else (Except.ok (), index, fs)

/-- The decoded value of a file read by `List`, when it has one. -/
def entryVal : EntryOutcome V E → Option V
  | EntryOutcome.val v => some v
  | _ => none

/-- An outcome the `List` loop survives: a decoded value or a skipped
directory. -/
def goodEntry : EntryOutcome V E → Bool
  | EntryOutcome.isDir => true
  | EntryOutcome.val _ => true
  | _ => false

/-- The store state a public operation can mutate: the index and the
directory's file contents. -/
structure World (B : Type) where
  index : List String
  fs : String → Option B

/-- One public mutating call together with the outcomes of its external
I/O. -/
inductive StoreOp (V E : Type) where
  | load (dirRead : Except E (List String))
  | put (key : String) (v : V) (openE encE closeE : Option E)
  | del (key : String) (removeE : Option E) (emptyAfter : Bool)

/-- Run one mutating call against the store state, discarding the returned
error value. -/
def runOp (cmp : String → String → Int) (ext : String) (enc : V → B)
    (junkB : B) (w : World B) (op : StoreOp V E) : World B :=
  match op with
  | StoreOp.load r => ⟨(loadGo cmp ext w.index r).2, w.fs⟩
  | StoreOp.put k v oE eE cE =>
    let r := putGo cmp ext enc junkB w.index w.fs k v oE eE cE
    ⟨r.2.1, r.2.2⟩
  | StoreOp.del k rE emp =>
    let r := deleteGo cmp ext w.index w.fs k rE emp
    ⟨r.2.1, r.2.2⟩

/-- Run a sequence of mutating calls. -/
def runOps (cmp : String → String → Int) (ext : String) (enc : V → B)
    (junkB : B) (w : World B) (ops : List (StoreOp V E)) : World B :=
  ops.foldl (runOp cmp ext enc junkB) w

/-- A newly created store (`New`): empty index, directory contents
`fs0`. -/
def newStore (fs0 : String → Option B) : World B :=
  ⟨[], fs0⟩

end Store

/-! ## The default comparator (`strings.Compare`) -/

/-- A three-way string comparison backed by the lexicographic order, as
`strings.Compare` provides; used by witnesses as a concrete valid
comparator. -/
def strCmp (a b : String) : Int :=
  if a < b then -1 else if b < a then 1 else 0

/-! ## Abbreviations used by theorem statements -/

/-- The index slice `[offset, capOf index limit)` that the `List` loop
walks. -/
def listSlice (index : List String) (offset limit : Int) : List String :=
  (index.take (capOf index limit).toNat).drop offset.toNat

/-- Concrete extension used by witnesses (the configured default). -/
def dotDat : String := ".dat"

/-- Concrete directory entry name used by witnesses. -/
def aDat : String := "a.dat"

/-- Concrete key used by witnesses. -/
def keyK : String := "k"

/-! ## Theorems -/

namespace ValidComparator

variable {cmp : String → String → Int}

theorem le_refl (hv : ValidComparator cmp) (a : String) : cmp a a ≤ 0 :=
  le_of_eq ((hv.eq0 a a).mpr rfl)

theorem le_trans (hv : ValidComparator cmp) {a b c : String}
    (h1 : cmp a b ≤ 0) (h2 : cmp b c ≤ 0) :
    cmp a c ≤ 0 := by
  rcases lt_or_eq_of_le h1 with h1' | h1'
  · rcases lt_or_eq_of_le h2 with h2' | h2'
    · exact le_of_lt (hv.trans a b c h1' h2')
    · have hbc : b = c := (hv.eq0 b c).mp h2'
      subst hbc; exact h1
  · have hab : a = b := (hv.eq0 a b).mp h1'
    subst hab; exact h2

theorem le_total (hv : ValidComparator cmp) (a b : String) :
    cmp a b ≤ 0 ∨ cmp b a ≤ 0 := by
  by_cases h : cmp a b ≤ 0
  · exact Or.inl h
  · right
    have hgt : cmp a b > 0 := lt_of_not_ge h
    have : cmp b a < 0 := (hv.flip b a).mpr hgt
    exact le_of_lt this

theorem eq_of_le_le (hv : ValidComparator cmp) {a b : String}
    (h1 : cmp a b ≤ 0) (h2 : cmp b a ≤ 0) :
    a = b := by
  rcases lt_or_eq_of_le h1 with h1' | h1'
  · have : cmp b a > 0 := (hv.flip a b).mp h1'
    omega
  · exact (hv.eq0 a b).mp h1'

theorem gt_of_not_le (hv : ValidComparator cmp) {a b : String}
    (h : ¬ cmp a b ≤ 0) : cmp b a < 0 := by
  have hgt : cmp a b > 0 := lt_of_not_ge h
  exact (hv.flip b a).mpr hgt

end ValidComparator

/-! ## Binary search correctness -/

/-- `sort.Search` on `[i, j)` with a predicate monotone below `j` returns
a position `r` with `i ≤ r ≤ j` such that the predicate is false strictly
below `r` and true at `r` when `r < j`. -/
theorem goSearch_spec (f : Nat → Bool) (n : Nat) :
    ∀ i j, j - i = n → i ≤ j →
      (∀ k l, k ≤ l → l < j → f k = true → f l = true) →
      i ≤ goSearch f i j ∧ goSearch f i j ≤ j ∧
        (∀ k, i ≤ k → k < goSearch f i j → f k = false) ∧
        (goSearch f i j < j → f (goSearch f i j) = true) := by
  induction n using Nat.strong_induction_on with
  | _ n IH =>
    intro i j hn hij hmono
    rw [goSearch]
    by_cases h : i < j
    · rw [dif_pos h]
      have hm1 : i ≤ (i + j) / 2 := by omega
      have hm2 : (i + j) / 2 < j := by omega
      by_cases hm : f ((i + j) / 2) = true
      · rw [if_pos hm]
        have hrec := IH ((i + j) / 2 - i) (by omega) i ((i + j) / 2) rfl hm1
          (fun k l hkl hl hfk => hmono k l hkl (lt_trans hl hm2) hfk)
        obtain ⟨h1, h2, h3, h4⟩ := hrec
        refine ⟨h1, le_trans h2 (le_of_lt hm2), h3, ?_⟩
        intro hlt
        by_cases hr : goSearch f i ((i + j) / 2) < (i + j) / 2
        · exact h4 hr
        · have heq : goSearch f i ((i + j) / 2) = (i + j) / 2 :=
            le_antisymm h2 (not_lt.mp hr)
          rw [heq]; exact hm
      · rw [if_neg hm]
        have hrec := IH (j - ((i + j) / 2 + 1)) (by omega) ((i + j) / 2 + 1) j rfl
          (by omega) hmono
        obtain ⟨h1, h2, h3, h4⟩ := hrec
        refine ⟨by omega, h2, ?_, h4⟩
        intro k hk hk2
        by_cases hkm : (i + j) / 2 + 1 ≤ k
        · exact h3 k hkm hk2
        · cases hfk : f k with
          | false => rfl
          | true =>
            have : f ((i + j) / 2) = true :=
              hmono k ((i + j) / 2) (by omega) hm2 hfk
            exact absurd this (by simpa using hm)
    · rw [dif_neg h]
      exact ⟨le_refl i, hij,
        fun k hk hk2 => absurd (lt_of_le_of_lt hk hk2) (lt_irrefl i),
        fun hlt => absurd hlt (by omega)⟩

/-- `getD` reads within bounds are plain index reads. -/
theorem listGetD_eq (l : List String) (k : Nat) (h : k < l.length) :
    l.getD k dummyName = l[k] := by
  simp [List.getD_eq_getElem?_getD, List.getElem?_eq_getElem h]

/-! ## Index lookup correctness -/

section FindLemma

variable {cmp : String → String → Int} {index : List String}

/-- The comparison predicate driving the store's binary search is monotone
on a sorted index. -/
theorem findName_mono (hv : ValidComparator cmp) (hs : IdxSorted cmp index)
    (name : String) :
    ∀ k l, k ≤ l → l < index.length →
      decide (cmp name (index.getD k dummyName) ≤ 0) = true →
      decide (cmp name (index.getD l dummyName) ≤ 0) = true := by
  intro k l hkl hl hfk
  simp only [decide_eq_true_eq] at hfk ⊢
  have hkn : k < index.length := lt_of_le_of_lt hkl hl
  rw [listGetD_eq _ _ hkn] at hfk
  rw [listGetD_eq _ _ hl]
  rcases Nat.lt_or_ge k l with hlt | hge
  · have hle := (List.pairwise_iff_getElem.mp hs) k l hkn hl hlt
    exact hv.le_trans hfk hle
  · have hkeq : k = l := le_antisymm hkl hge
    subst hkeq; exact hfk

/-- Unfolding of the search position of `findName`. -/
theorem findName_fst_eq (name : String) :
    (findName cmp index name).1 =
      goSearch (fun k => decide (cmp name (index.getD k dummyName) ≤ 0))
        0 index.length := rfl

/-- Unfolding of the found flag of `findName`. -/
theorem findName_snd_eq (name : String) :
    (findName cmp index name).2 =
      decide ((findName cmp index name).1 < index.length ∧
        cmp name (index.getD (findName cmp index name).1 dummyName) = 0) := rfl

/-- On a sorted index under a valid comparator, the binary search of
`Get`/`Put`/`Delete` reports a hit exactly when the filename is in the
index. -/
theorem findName_found_iff (hv : ValidComparator cmp) (hs : IdxSorted cmp index)
    (name : String) :
    (findName cmp index name).2 = true ↔ name ∈ index := by
  obtain ⟨h1, h2, h3, h4⟩ :=
    goSearch_spec (fun k => decide (cmp name (index.getD k dummyName) ≤ 0))
      index.length 0 index.length rfl (Nat.zero_le _) (findName_mono hv hs name)
  rw [← findName_fst_eq name] at h1 h2 h3 h4
  rw [findName_snd_eq]
  simp only [decide_eq_true_eq]
  constructor
  · rintro ⟨hlt, heq⟩
    rw [listGetD_eq _ _ hlt] at heq
    have hne : name = index[(findName cmp index name).1] := (hv.eq0 _ _).mp heq
    rw [hne]
    exact List.getElem_mem _
  · intro hmem
    obtain ⟨p, hp, hpe⟩ := List.getElem_of_mem hmem
    have hfp : decide (cmp name (index.getD p dummyName) ≤ 0) = true := by
      simp only [decide_eq_true_eq]
      rw [listGetD_eq _ _ hp, hpe]
      exact hv.le_refl name
    have hple : (findName cmp index name).1 ≤ p := by
      by_contra hc
      push_neg at hc
      have hfalse := h3 p (Nat.zero_le _) hc
      rw [hfp] at hfalse
      cases hfalse
    have hrlt : (findName cmp index name).1 < index.length :=
      lt_of_le_of_lt hple hp
    refine ⟨hrlt, ?_⟩
    rw [listGetD_eq _ _ hrlt]
    have hfr := h4 hrlt
    simp only [decide_eq_true_eq] at hfr
    rw [listGetD_eq _ _ hrlt] at hfr
    have hge : cmp (index[(findName cmp index name).1]) name ≤ 0 := by
      rcases Nat.lt_or_ge (findName cmp index name).1 p with hlt | hge2
      · have hle := (List.pairwise_iff_getElem.mp hs) _ p hrlt hp hlt
        rw [hpe] at hle
        exact hle
      · have hrp : (findName cmp index name).1 = p := le_antisymm hple hge2
        have hidx : index[(findName cmp index name).1] = name := by
          simp only [hrp]
          exact hpe
        rw [hidx]
        exact hv.le_refl name
    have hnm : name = index[(findName cmp index name).1] :=
      hv.eq_of_le_le hfr hge
    exact (hv.eq0 _ _).mpr hnm

/-- Every entry strictly below the search position compares below the
searched name, and the name compares at or below every entry from the
search position on. -/
theorem findName_pos_spec (hv : ValidComparator cmp) (hs : IdxSorted cmp index)
    (name : String) :
    (findName cmp index name).1 ≤ index.length ∧
      (∀ k, k < (findName cmp index name).1 →
        ∀ hk : k < index.length, cmp index[k] name ≤ 0) ∧
      (∀ k, (findName cmp index name).1 ≤ k →
        ∀ hk : k < index.length, cmp name index[k] ≤ 0) := by
  obtain ⟨h1, h2, h3, h4⟩ :=
    goSearch_spec (fun k => decide (cmp name (index.getD k dummyName) ≤ 0))
      index.length 0 index.length rfl (Nat.zero_le _) (findName_mono hv hs name)
  rw [← findName_fst_eq] at h1 h2 h3 h4
  refine ⟨h2, ?_, ?_⟩
  · intro k hk hkn
    have hfalse := h3 k (Nat.zero_le _) hk
    simp only [decide_eq_false_iff_not] at hfalse
    rw [listGetD_eq _ _ hkn] at hfalse
    exact le_of_lt (hv.gt_of_not_le hfalse)
  · intro k hrk hkn
    have hrlt : (findName cmp index name).1 < index.length :=
      lt_of_le_of_lt hrk hkn
    have hfr := h4 hrlt
    simp only [decide_eq_true_eq] at hfr
    rw [listGetD_eq _ _ hrlt] at hfr
    rcases Nat.lt_or_ge (findName cmp index name).1 k with hlt | hge2
    · have hle := (List.pairwise_iff_getElem.mp hs) _ k hrlt hkn hlt
      exact hv.le_trans hfr hle
    · have hrk2 : (findName cmp index name).1 = k := le_antisymm hrk hge2
      subst hrk2
      exact hfr

/-- Inserting a name at the position returned by the binary search keeps
the index sorted. -/
theorem sorted_insert_findName (hv : ValidComparator cmp)
    (hs : IdxSorted cmp index) (name : String) :
    IdxSorted cmp (insertAt (findName cmp index name).1 name index) := by
  obtain ⟨hle, hlow, hhigh⟩ := findName_pos_spec hv hs name
  unfold insertAt IdxSorted
  rw [List.pairwise_append]
  refine ⟨hs.sublist (List.take_sublist _ _), ?_, ?_⟩
  · rw [List.pairwise_cons]
    refine ⟨?_, hs.sublist (List.drop_sublist _ _)⟩
    intro b hb
    obtain ⟨j, hj, hbe⟩ := List.getElem_of_mem hb
    rw [List.getElem_drop] at hbe
    have hjn : (findName cmp index name).1 + j < index.length := by
      rw [List.length_drop] at hj
      omega
    have := hhigh ((findName cmp index name).1 + j) (Nat.le_add_right _ _) hjn
    rw [hbe] at this
    exact this
  · intro a ha b hb
    obtain ⟨k, hk, hke⟩ := List.getElem_of_mem ha
    have hkr : k < (findName cmp index name).1 ∧ k < index.length := by
      rw [List.length_take] at hk
      omega
    rw [List.getElem_take] at hke
    rcases List.mem_cons.mp hb with hbn | hbd
    · subst hbn
      have := hlow k hkr.1 hkr.2
      rw [hke] at this
      exact this
    · obtain ⟨j, hj, hbe⟩ := List.getElem_of_mem hbd
      rw [List.getElem_drop] at hbe
      have hjn : (findName cmp index name).1 + j < index.length := by
        rw [List.length_drop] at hj
        omega
      have hkj : k < (findName cmp index name).1 + j := by omega
      have := (List.pairwise_iff_getElem.mp hs) k _ hkr.2 hjn hkj
      rw [hke, hbe] at this
      exact this

/-- The inserted name is a member of the new index. -/
theorem mem_insertAt (i : Nat) (name : String) (l : List String) :
    name ∈ insertAt i name l := by
  simp [insertAt]

/-- Removing one entry is a sublist operation. -/
theorem removeAt_sublist (i : Nat) (l : List String) :
    (removeAt i l).Sublist l := by
  have h1 : (l.drop (i + 1)).Sublist (l.drop i) :=
    List.drop_sublist_drop_left l (Nat.le_succ i)
  have h2 := List.Sublist.append_left h1 (l.take i)
  rw [List.take_append_drop] at h2
  exact h2

/-- Removing one entry keeps the index sorted. -/
theorem sorted_removeAt (hs : IdxSorted cmp index) (i : Nat) :
    IdxSorted cmp (removeAt i index) :=
  hs.sublist (removeAt_sublist i index)

/-- Removing the found entry of a duplicate-free index removes the name
entirely. -/
theorem not_mem_removeAt (hnd : index.Nodup) (r : Nat) (hr : r < index.length) :
    index[r] ∉ removeAt r index := by
  intro hmem
  rw [removeAt, List.mem_append] at hmem
  rcases hmem with h | h
  · obtain ⟨k, hk, hke⟩ := List.getElem_of_mem h
    have hkr : k < r ∧ k < index.length := by
      rw [List.length_take] at hk
      omega
    rw [List.getElem_take] at hke
    have := (List.Nodup.getElem_inj_iff hnd).mp hke
    omega
  · obtain ⟨j, hj, hje⟩ := List.getElem_of_mem h
    rw [List.getElem_drop] at hje
    have := (List.Nodup.getElem_inj_iff hnd).mp hje
    omega

end FindLemma

section ListLemma

variable {V E B : Type}

/-- The `List` loop over in-bounds positions whose files all open, stat
and decode (or are skipped directories) succeeds and appends exactly the
decoded values of the index slice `[i, cap)`, in index order. -/
theorem listLoop_ok (fs : String → EntryOutcome V E) (index : List String) :
    ∀ (n : Nat) (i cap : Int) (acc : List V), (cap - i).toNat = n → 0 ≤ i →
      cap ≤ (index.length : Int) →
      (∀ nm ∈ (index.take cap.toNat).drop i.toNat, goodEntry (fs nm) = true) →
      listLoop fs index cap i acc =
        some (Except.ok (acc ++ ((index.take cap.toNat).drop i.toNat).filterMap
          (fun nm => entryVal (fs nm)))) := by
  intro n
  induction n with
  | zero =>
    intro i cap acc hn hi hcap hgood
    rw [listLoop]
    have hic : ¬ i < cap := by omega
    rw [dif_neg hic]
    have hempty : (index.take cap.toNat).drop i.toNat = [] := by
      apply List.drop_eq_nil_of_le
      rw [List.length_take]
      omega
    rw [hempty]
    simp
  | succ n IH =>
    intro i cap acc hn hi hcap hgood
    have hic : i < cap := by omega
    have hin : 0 ≤ i ∧ i.toNat < index.length := ⟨hi, by omega⟩
    rw [listLoop, dif_pos hic, dif_pos hin]
    have hlt2 : i.toNat < (index.take cap.toNat).length := by
      rw [List.length_take]
      omega
    have hdec : (index.take cap.toNat).drop i.toNat =
        index[i.toNat] :: (index.take cap.toNat).drop (i.toNat + 1) := by
      rw [← List.getElem_cons_drop _ _ hlt2]
      congr 1
      exact List.getElem_take _
    have hgethead : index.get ⟨i.toNat, hin.2⟩ = index[i.toNat] := rfl
    have hto : (i + 1).toNat = i.toNat + 1 := by omega
    have hgood' : ∀ nm ∈ (index.take cap.toNat).drop ((i + 1).toNat),
        goodEntry (fs nm) = true := by
      intro nm hnm
      apply hgood
      rw [hdec, hto] at *
      exact List.mem_cons_of_mem _ hnm
    have hheadmem : index[i.toNat] ∈ (index.take cap.toNat).drop i.toNat := by
      rw [hdec]
      exact List.mem_cons_self _ _
    have hheadgood := hgood _ hheadmem
    cases hfs : fs (index[i.toNat]) with
    | openErr e =>
      rw [hfs] at hheadgood
      simp [goodEntry] at hheadgood
    | statErr e =>
      rw [hfs] at hheadgood
      simp [goodEntry] at hheadgood
    | decodeErr e =>
      rw [hfs] at hheadgood
      simp [goodEntry] at hheadgood
    | isDir =>
      show listLoop fs index cap (i + 1) acc = _
      have hrec := IH (i + 1) cap acc (by omega) (by omega) hcap hgood'
      rw [hto] at hrec
      rw [hrec, hdec,
        @List.filterMap_cons_none _ _ (fun nm => entryVal (fs nm)) _ _
          (by simp [entryVal, hfs])]
    | val v =>
      show listLoop fs index cap (i + 1) (acc ++ [v]) = _
      have hrec := IH (i + 1) cap (acc ++ [v]) (by omega) (by omega) hcap hgood'
      rw [hto] at hrec
      rw [hrec, hdec,
        @List.filterMap_cons_some _ _ (fun nm => entryVal (fs nm)) _ _ v
          (by simp [entryVal, hfs])]
      simp


end ListLemma

theorem strCmp_neg_iff (a b : String) : strCmp a b < 0 ↔ a < b := by
  unfold strCmp
  split_ifs with h1 h2
  · norm_num [h1]
  · norm_num [h1]
  · norm_num [h1]

theorem strCmp_pos_iff (a b : String) : strCmp a b > 0 ↔ b < a := by
  unfold strCmp
  split_ifs with h1 h2
  · norm_num [asymm h1]
  · norm_num [h2]
  · norm_num [h2]

theorem strCmp_eq_zero_iff (a b : String) : strCmp a b = 0 ↔ a = b := by
  unfold strCmp
  split_ifs with h1 h2
  · norm_num [ne_of_lt h1]
  · norm_num [ne_of_gt h2]
  · have hab : a = b := le_antisymm (not_lt.mp h2) (not_lt.mp h1)
    simp [hab]

theorem validComparator_strCmp : ValidComparator strCmp := by
  refine ⟨strCmp_eq_zero_iff, ?_, ?_⟩
  · intro a b
    rw [strCmp_neg_iff, strCmp_pos_iff]
  · intro a b c hab hbc
    rw [strCmp_neg_iff] at *
    exact lt_trans hab hbc

/-! ## Operation shapes -/

section OpLemma

variable {V E B : Type} {cmp : String → String → Int} {index : List String}

/-- A found hit pins down the position: it is in bounds and holds exactly
the searched name. -/
theorem findName_found_getElem (hv : ValidComparator cmp) (name : String)
    (hfound : (findName cmp index name).2 = true) :
    ∃ h : (findName cmp index name).1 < index.length,
      index[(findName cmp index name).1] = name := by
  rw [findName_snd_eq] at hfound
  simp only [decide_eq_true_eq] at hfound
  obtain ⟨hlt, heq⟩ := hfound
  rw [listGetD_eq _ _ hlt] at heq
  exact ⟨hlt, ((hv.eq0 _ _).mp heq).symm⟩

/-- A fully successful `Put` returns no error, inserts the filename when
absent, and stores the encoded value. -/
theorem putGo_success (ext : String) (enc : V → B) (junkB : B)
    (fs : String → Option B) (key : String) (v : V) :
    putGo cmp ext enc junkB index fs key v (none : Option E) none none =
      (Except.ok (),
        (if (findName cmp index (fileName ext key)).2 then index
         else insertAt (findName cmp index (fileName ext key)).1
           (fileName ext key) index),
        fun n => if n = fileName ext key then some (enc v) else fs n) := rfl

end OpLemma

/-- `Put` either keeps the index or inserts the filename at the searched
position. -/
theorem putGo_index {V E B : Type} (cmp : String → String → Int)
    (index : List String) (ext : String) (enc : V → B) (junkB : B)
    (fs : String → Option B) (key : String) (v : V) (oE eE cE : Option E) :
    (putGo cmp ext enc junkB index fs key v oE eE cE).2.1 = index ∨
      (putGo cmp ext enc junkB index fs key v oE eE cE).2.1 =
        insertAt (findName cmp index (fileName ext key)).1
          (fileName ext key) index := by
  rcases oE with _ | e
  · rcases eE with _ | e
    · rcases cE with _ | e1
      · by_cases hf : (findName cmp index (fileName ext key)).2
        · left
          simp [putGo, hf]
        · right
          simp [putGo, hf]
      · left
        simp [putGo]
    · left
      simp [putGo]
  · left
    simp [putGo]

section OpLemma2

variable {V E B : Type} {cmp : String → String → Int} {index : List String}

/-- A present key with a failing remove leaves everything unchanged and
surfaces the error. -/
theorem deleteGo_found_err (ext : String) (fs : String → Option B)
    (key : String) (e : E) (b : Bool)
    (hfound : (findName cmp index (fileName ext key)).2 = true) :
    deleteGo cmp ext index fs key (some e) b =
      (Except.error e, index, fs) := by
  simp [deleteGo, hfound]

/-- A present key with a successful remove drops the index entry and the
file. -/
theorem deleteGo_found_ok (ext : String) (fs : String → Option B)
    (key : String) (b : Bool)
    (hfound : (findName cmp index (fileName ext key)).2 = true) :
    deleteGo cmp ext index fs key (none : Option E) b =
      (Except.ok (), removeAt (findName cmp index (fileName ext key)).1 index,
        fun n => if n = fileName ext key then none else fs n) := by
  simp [deleteGo, hfound]

/-- An absent key makes `Delete` a successful no-op, whatever the remove
outcome would have been. -/
theorem deleteGo_notfound (ext : String) (fs : String → Option B)
    (key : String) (rE : Option E) (b : Bool)
    (hnf : (findName cmp index (fileName ext key)).2 = false) :
    deleteGo cmp ext index fs key rE b = (Except.ok (), index, fs) := by
  simp [deleteGo, hnf]

end OpLemma2

/-- `Delete` either keeps the index or removes the entry at the searched
position. -/
theorem deleteGo_index {E B : Type} (cmp : String → String → Int)
    (index : List String) (ext : String) (fs : String → Option B)
    (key : String) (rE : Option E) (b : Bool) :
    (deleteGo cmp ext index fs key rE b).2.1 = index ∨
      (deleteGo cmp ext index fs key rE b).2.1 =
        removeAt (findName cmp index (fileName ext key)).1 index := by
  by_cases hf : (findName cmp index (fileName ext key)).2
  · rcases rE with _ | e
    · right
      rw [deleteGo_found_ok _ _ _ _ hf]
    · left
      rw [deleteGo_found_err _ _ _ _ _ hf]
  · left
    rw [deleteGo_notfound _ _ _ _ _ (Bool.not_eq_true _ |>.mp hf)]

section OpLemma3

variable {V E B : Type} {cmp : String → String → Int} {index : List String}

/-- `Get` of a key present in a sorted index returns the decoded content
of its file. -/
theorem getGo_found_read (hv : ValidComparator cmp) (hs : IdxSorted cmp index)
    (ext : String) (dec : B → Except E V)
    (hmem : fileName ext key ∈ index) (fs : String → Option B) (eMiss : E)
    (b : B) (hfs : fs (fileName ext key) = some b) (v : V)
    (hdec : dec b = Except.ok v) :
    getGo cmp ext dec index (readFS fs eMiss) key = Except.ok v := by
  have hfound := (findName_found_iff hv hs _).mpr hmem
  simp [getGo, hfound, readFS, hfs, hdec]

end OpLemma3

/-- `Load` always replaces the index with the sorted filter of the names
the directory listing produced. -/
theorem sorted_loadGo {E : Type} {cmp : String → String → Int}
    (hv : ValidComparator cmp) (ext : String) (index : List String)
    (r : Except E (List String)) :
    IdxSorted cmp (loadGo cmp ext index r).2 :=
  @List.sorted_insertionSort _ (cmpLe cmp) _
    ⟨fun a b => hv.le_total a b⟩
    ⟨fun a b c h1 h2 => hv.le_trans h1 h2⟩ _

/-! ## Claims -/

/-- C1: the claim says `List(offset, limit)` with `offset ≥ Total` returns
zero values and succeeds for every `limit` with no out-of-range access of
the Index. The code instead evaluates `s.index[i]` for `i` up to
`limit - 1` whenever `limit > offset`, so on an empty store (`Total = 0`,
`offset = 0 ≥ Total`) the call `List(0, 1)` reads `s.index[0]` out of
range (modelled as `none`, the panic) instead of returning an empty
page. -/
theorem claim_C1_out_of_range :
    listGo (fun _ => (EntryOutcome.isDir : EntryOutcome Unit Unit))
      ([] : List String) 0 1 = none := by
  have hloop : listLoop (fun _ => (EntryOutcome.isDir : EntryOutcome Unit Unit))
      ([] : List String) 1 0 [] = none := by
    rw [listLoop]
    norm_num
  have hcap : capOf ([] : List String) 1 = 1 := rfl
  simp [listGo, hcap, hloop]

/-- C2 counterexample: with a failing directory read, `Load` returns
success — not a failure — and replaces the previously nonempty Index with
the empty one rather than leaving it untouched. -/
theorem claim_C2_counterexample :
    loadGo strCmp dotDat [aDat] (Except.error (0 : Nat)) =
      (Except.ok (), ([] : List String)) ∧
      [aDat] ≠ ([] : List String) := by
  constructor
  · rfl
  · simp

/-- C2 amended: if the underlying directory read fails, `Load`
nevertheless succeeds — the `Must`-style listing helper swallows the
error and reports no names — and the Index is replaced by the empty
Index; indeed `Load` returns success for every listing outcome. -/
theorem claim_C2_load_never_fails {E : Type} (cmp : String → String → Int)
    (ext : String) (index : List String) :
    (∀ e : E, loadGo cmp ext index (Except.error e) =
      (Except.ok (), ([] : List String))) ∧
    (∀ r : Except E (List String), (loadGo cmp ext index r).1 = Except.ok ()) := by
  constructor
  · intro e
    rfl
  · intro r
    rfl

/-- C4: after a successful `Load`, the Index holds exactly the directory
entry names whose `filepath.Ext`-extension equals the configured
extension — any entry with a different extension is excluded, every entry
with the configured extension is included — sorted per the configured
comparator, for every configured extension string. -/
theorem claim_C4_load_filter_sort {E : Type} (cmp : String → String → Int)
    (hv : ValidComparator cmp) (ext : String) (index0 : List String)
    (names : List String) :
    IdxSorted cmp
      (loadGo cmp ext index0 (Except.ok names : Except E (List String))).2 ∧
    ∀ nm, nm ∈ (loadGo cmp ext index0 (Except.ok names : Except E (List String))).2 ↔
      nm ∈ names ∧ goExt nm = ext := by
  constructor
  · exact sorted_loadGo hv ext index0 _
  · intro nm
    show nm ∈ List.insertionSort (cmpLe cmp)
      (names.filter (fun n => goExt n == ext)) ↔ _
    rw [List.mem_insertionSort, List.mem_filter]
    simp

/-- C4 witness: a concrete load through the default comparator. -/
theorem claim_C4_witness :
    IdxSorted strCmp
      (loadGo strCmp dotDat [] (Except.ok [aDat] : Except Nat (List String))).2 ∧
    ∀ nm, nm ∈ (loadGo strCmp dotDat [] (Except.ok [aDat] : Except Nat (List String))).2 ↔
      nm ∈ [aDat] ∧ goExt nm = dotDat :=
  claim_C4_load_filter_sort strCmp validComparator_strCmp dotDat [] [aDat]

/-- C9: in `Put`, an encode error takes priority over a close error, a
close error is surfaced when the encode succeeded, and on any failure —
open, encode or close — the Index is left unchanged; a success implies
all three steps succeeded. -/
theorem claim_C9_put_error_priority {V E B : Type} (cmp : String → String → Int)
    (ext : String) (enc : V → B) (junkB : B) (index : List String)
    (fs : String → Option B) (key : String) (v : V) (oE eE cE : Option E) :
    ((∃ e, (putGo cmp ext enc junkB index fs key v oE eE cE).1 = Except.error e) →
      (putGo cmp ext enc junkB index fs key v oE eE cE).2.1 = index) ∧
    (oE = none → ∀ e, eE = some e →
      (putGo cmp ext enc junkB index fs key v oE eE cE).1 = Except.error e) ∧
    (oE = none → eE = none → ∀ e1, cE = some e1 →
      (putGo cmp ext enc junkB index fs key v oE eE cE).1 = Except.error e1) ∧
    ((putGo cmp ext enc junkB index fs key v oE eE cE).1 = Except.ok () →
      oE = none ∧ eE = none ∧ cE = none) := by
  rcases oE with _ | e0
  · rcases eE with _ | e1
    · rcases cE with _ | e2
      · simp [putGo]
      · simp [putGo]
    · simp [putGo]
  · simp [putGo]

/-- C9 witness: with a successful open, a failing encode and a failing
close, `Put` surfaces the encode error. -/
theorem claim_C9_witness :
    (putGo strCmp dotDat (fun v : Nat => v) 0 [] (fun _ => none) keyK 7
      none (some 5) (some 9)).1 = Except.error 5 :=
  (claim_C9_put_error_priority strCmp dotDat (fun v : Nat => v) 0 []
    (fun _ => none) keyK 7 none (some 5) (some 9)).2.1 rfl 5 rfl

/-- One mutating call keeps the index sorted. -/
theorem sorted_runOp {V E B : Type} (cmp : String → String → Int)
    (hv : ValidComparator cmp) (ext : String) (enc : V → B) (junkB : B)
    (w : World B) (op : StoreOp V E) (hw : IdxSorted cmp w.index) :
    IdxSorted cmp (runOp cmp ext enc junkB w op).index := by
  cases op with
  | load r =>
    exact sorted_loadGo hv ext w.index r
  | put k v oE eE cE =>
    show IdxSorted cmp (putGo cmp ext enc junkB w.index w.fs k v oE eE cE).2.1
    rcases putGo_index cmp w.index ext enc junkB w.fs k v oE eE cE with h | h
    · rw [h]; exact hw
    · rw [h]; exact sorted_insert_findName hv hw _
  | del k rE b =>
    show IdxSorted cmp (deleteGo cmp ext w.index w.fs k rE b).2.1
    rcases deleteGo_index cmp w.index ext w.fs k rE b with h | h
    · rw [h]; exact hw
    · rw [h]; exact sorted_removeAt hw _

/-- C5: starting from a newly created store, after every finite sequence
of `Load`/`Put`/`Delete` calls — whatever their external outcomes — the
Index is sorted per the configured comparator, assuming the comparator is
a consistent, valid total order. -/
theorem claim_C5_sort_invariant {V E B : Type} (cmp : String → String → Int)
    (hv : ValidComparator cmp) (ext : String) (enc : V → B) (junkB : B)
    (fs0 : String → Option B) (ops : List (StoreOp V E)) :
    IdxSorted cmp (runOps cmp ext enc junkB (newStore fs0) ops).index := by
  have hgen : ∀ (l : List (StoreOp V E)) (w : World B), IdxSorted cmp w.index →
      IdxSorted cmp (runOps cmp ext enc junkB w l).index := by
    intro l
    induction l with
    | nil =>
      intro w hw
      exact hw
    | cons op rest IH =>
      intro w hw
      exact IH _ (sorted_runOp cmp hv ext enc junkB w op hw)
  exact hgen ops (newStore fs0) List.Pairwise.nil

/-- C5 witness: a concrete load, put and delete sequence under the
default comparator. -/
theorem claim_C5_witness :
    IdxSorted strCmp
      (runOps strCmp dotDat (fun v : Nat => v) 0
        (newStore (fun _ => (none : Option Nat)))
        [StoreOp.load (Except.ok [aDat]),
         StoreOp.put keyK 5 none none none,
         StoreOp.del keyK (none : Option Nat) false]).index :=
  claim_C5_sort_invariant strCmp validComparator_strCmp dotDat
    (fun v : Nat => v) 0 (fun _ => none) _

/-- C6: assuming the configured decoder is a left inverse of the
configured encoder, a fully successful `Put(k, v)` on a sorted index
followed by `Get(k)` against the resulting store returns exactly `v`. -/
theorem claim_C6_roundtrip {V E B : Type} (cmp : String → String → Int)
    (hv : ValidComparator cmp) (ext : String) (enc : V → B)
    (dec : B → Except E V) (hcodec : ∀ v, dec (enc v) = Except.ok v)
    (junkB : B) (index : List String) (hs : IdxSorted cmp index)
    (fs : String → Option B) (eMiss : E) (key : String) (v : V) :
    (putGo cmp ext enc junkB index fs key v (none : Option E) none none).1 =
      Except.ok () ∧
    getGo cmp ext dec
      (putGo cmp ext enc junkB index fs key v (none : Option E) none none).2.1
      (readFS
        (putGo cmp ext enc junkB index fs key v (none : Option E) none none).2.2
        eMiss) key = Except.ok v := by
  rw [putGo_success]
  refine ⟨rfl, ?_⟩
  by_cases hf : (findName cmp index (fileName ext key)).2
  · rw [if_pos hf]
    exact getGo_found_read hv hs ext dec
      ((findName_found_iff hv hs _).mp hf) _ eMiss (enc v) (by simp) v
      (hcodec v)
  · rw [if_neg hf]
    exact getGo_found_read hv (sorted_insert_findName hv hs _) ext dec
      (mem_insertAt _ _ _) _ eMiss (enc v) (by simp) v (hcodec v)

/-- C6 witness: a concrete put/get round trip with the identity codec. -/
theorem claim_C6_witness :
    (putGo strCmp dotDat (fun v : Nat => v) 0 [] (fun _ => none) keyK 5
      (none : Option Nat) none none).1 = Except.ok () ∧
    getGo strCmp dotDat (fun b : Nat => Except.ok b)
      (putGo strCmp dotDat (fun v : Nat => v) 0 [] (fun _ => none) keyK 5
        (none : Option Nat) none none).2.1
      (readFS
        (putGo strCmp dotDat (fun v : Nat => v) 0 [] (fun _ => none) keyK 5
          (none : Option Nat) none none).2.2 0) keyK = Except.ok 5 :=
  claim_C6_roundtrip strCmp validComparator_strCmp dotDat (fun v : Nat => v)
    (fun b : Nat => Except.ok b) (fun v => rfl) 0 [] List.Pairwise.nil
    (fun _ => none) 0 keyK 5

/-- C7: for a key present in a sorted index, a failing file removal makes
`Delete` return that failure with the Index unchanged, and only a
successful removal removes the Index entry (together with the file). -/
theorem claim_C7_delete_error_ordering {E B : Type}
    (cmp : String → String → Int) (hv : ValidComparator cmp) (ext : String)
    (index : List String) (hs : IdxSorted cmp index) (fs : String → Option B)
    (key : String) (hmem : fileName ext key ∈ index) :
    (∀ (e : E) (b : Bool),
      deleteGo cmp ext index fs key (some e) b = (Except.error e, index, fs)) ∧
    (∀ b : Bool,
      deleteGo cmp ext index fs key (none : Option E) b =
        (Except.ok (),
          removeAt (findName cmp index (fileName ext key)).1 index,
          fun n => if n = fileName ext key then none else fs n)) := by
  have hf := (findName_found_iff hv hs _).mpr hmem
  exact ⟨fun e b => deleteGo_found_err _ _ _ e b hf,
    fun b => deleteGo_found_ok _ _ _ b hf⟩

/-- C7 witness: a failing removal of a present key surfaces the error and
keeps the index. -/
theorem claim_C7_witness :
    deleteGo strCmp dotDat [fileName dotDat keyK]
      (fun _ => (none : Option Nat)) keyK (some (3 : Nat)) false =
      (Except.error 3, [fileName dotDat keyK],
        fun _ => (none : Option Nat)) :=
  (claim_C7_delete_error_ordering strCmp validComparator_strCmp dotDat
    [fileName dotDat keyK] (by simp [IdxSorted]) (fun _ => none) keyK
    (List.mem_singleton.mpr rfl)).1 3 false

/-- C8: `Delete` of a key whose filename is absent from a sorted,
duplicate-free index succeeds and leaves everything unchanged, and two
consecutive `Delete` calls for the same key (with working file removal)
leave the store in the same state as one: the second call is always a
successful no-op. -/
theorem claim_C8_idempotent_delete {E B : Type}
    (cmp : String → String → Int) (hv : ValidComparator cmp) (ext : String)
    (index : List String) (hs : IdxSorted cmp index) (hnd : index.Nodup)
    (fs : String → Option B) (key : String) :
    (fileName ext key ∉ index →
      ∀ (rE : Option E) (b : Bool),
        deleteGo cmp ext index fs key rE b = (Except.ok (), index, fs)) ∧
    (∀ b1 b2 : Bool,
      deleteGo cmp ext
        (deleteGo cmp ext index fs key (none : Option E) b1).2.1
        (deleteGo cmp ext index fs key (none : Option E) b1).2.2
        key (none : Option E) b2 =
      (Except.ok (),
        (deleteGo cmp ext index fs key (none : Option E) b1).2.1,
        (deleteGo cmp ext index fs key (none : Option E) b1).2.2)) := by
  constructor
  · intro habs rE b
    have hnf : (findName cmp index (fileName ext key)).2 = false :=
      Bool.eq_false_iff.mpr
        (fun h => habs ((findName_found_iff hv hs _).mp h))
    exact deleteGo_notfound _ _ _ _ _ hnf
  · intro b1 b2
    by_cases hf : (findName cmp index (fileName ext key)).2
    · rw [deleteGo_found_ok _ _ _ _ hf]
      obtain ⟨hrlt, hre⟩ := findName_found_getElem hv _ hf
      have hs' : IdxSorted cmp
          (removeAt (findName cmp index (fileName ext key)).1 index) :=
        sorted_removeAt hs _
      have habs' : fileName ext key ∉
          removeAt (findName cmp index (fileName ext key)).1 index := by
        have h0 := not_mem_removeAt hnd _ hrlt
        rwa [hre] at h0
      have hnf2 : (findName cmp
          (removeAt (findName cmp index (fileName ext key)).1 index)
          (fileName ext key)).2 = false :=
        Bool.eq_false_iff.mpr
          (fun h => habs' ((findName_found_iff hv hs' _).mp h))
      exact deleteGo_notfound _ _ _ _ _ hnf2
    · have hnf : (findName cmp index (fileName ext key)).2 = false :=
        Bool.eq_false_iff.mpr hf
      rw [deleteGo_notfound _ _ _ _ _ hnf]
      exact deleteGo_notfound _ _ _ _ _ hnf

/-- C8 witness: deleting an absent key (empty store) is a successful
no-op even when the file removal would have failed. -/
theorem claim_C8_witness :
    deleteGo strCmp dotDat [] (fun _ => (none : Option Nat)) keyK
      (some (3 : Nat)) false =
      (Except.ok (), ([] : List String), fun _ => (none : Option Nat)) :=
  (claim_C8_idempotent_delete strCmp validComparator_strCmp dotDat []
    List.Pairwise.nil List.nodup_nil (fun _ => none) keyK).1
    (List.not_mem_nil _) (some 3) false

/-- C10: two fully successful `Put`s of the same key on a sorted index
leave the Index identical after the second call — in particular its
length is unchanged, no duplicate filename is inserted — and a `Get` of
the key then returns the second value, assuming the decoder inverts the
encoder. -/
theorem claim_C10_overwrite {V E B : Type} (cmp : String → String → Int)
    (hv : ValidComparator cmp) (ext : String) (enc : V → B)
    (dec : B → Except E V) (hcodec : ∀ v, dec (enc v) = Except.ok v)
    (junkB : B) (index : List String) (hs : IdxSorted cmp index)
    (fs : String → Option B) (eMiss : E) (key : String) (v1 v2 : V) :
    (putGo cmp ext enc junkB
        (putGo cmp ext enc junkB index fs key v1 (none : Option E) none none).2.1
        (putGo cmp ext enc junkB index fs key v1 (none : Option E) none none).2.2
        key v2 (none : Option E) none none).2.1 =
      (putGo cmp ext enc junkB index fs key v1 (none : Option E) none none).2.1 ∧
    (putGo cmp ext enc junkB
        (putGo cmp ext enc junkB index fs key v1 (none : Option E) none none).2.1
        (putGo cmp ext enc junkB index fs key v1 (none : Option E) none none).2.2
        key v2 (none : Option E) none none).2.1.length =
      (putGo cmp ext enc junkB index fs key v1 (none : Option E) none none).2.1.length ∧
    getGo cmp ext dec
      (putGo cmp ext enc junkB
        (putGo cmp ext enc junkB index fs key v1 (none : Option E) none none).2.1
        (putGo cmp ext enc junkB index fs key v1 (none : Option E) none none).2.2
        key v2 (none : Option E) none none).2.1
      (readFS
        (putGo cmp ext enc junkB
          (putGo cmp ext enc junkB index fs key v1 (none : Option E) none none).2.1
          (putGo cmp ext enc junkB index fs key v1 (none : Option E) none none).2.2
          key v2 (none : Option E) none none).2.2 eMiss)
      key = Except.ok v2 := by
  rw [putGo_success]
  have hs1 : IdxSorted cmp
      (if (findName cmp index (fileName ext key)).2 then index
       else insertAt (findName cmp index (fileName ext key)).1
         (fileName ext key) index) := by
    by_cases hf : (findName cmp index (fileName ext key)).2
    · rw [if_pos hf]; exact hs
    · rw [if_neg hf]; exact sorted_insert_findName hv hs _
  have hmem1 : fileName ext key ∈
      (if (findName cmp index (fileName ext key)).2 then index
       else insertAt (findName cmp index (fileName ext key)).1
         (fileName ext key) index) := by
    by_cases hf : (findName cmp index (fileName ext key)).2
    · rw [if_pos hf]; exact (findName_found_iff hv hs _).mp hf
    · rw [if_neg hf]; exact mem_insertAt _ _ _
  have hf2 := (findName_found_iff hv hs1 _).mpr hmem1
  rw [putGo_success, if_pos hf2]
  refine ⟨rfl, rfl, ?_⟩
  exact getGo_found_read hv hs1 ext dec hmem1 _ eMiss (enc v2) (by simp) v2
    (hcodec v2)

/-- C10 witness: overwriting a key with the identity codec keeps the
index and returns the second value. -/
theorem claim_C10_witness :
    (putGo strCmp dotDat (fun v : Nat => v) 0
        (putGo strCmp dotDat (fun v : Nat => v) 0 [] (fun _ => none) keyK 5
          (none : Option Nat) none none).2.1
        (putGo strCmp dotDat (fun v : Nat => v) 0 [] (fun _ => none) keyK 5
          (none : Option Nat) none none).2.2
        keyK 6 (none : Option Nat) none none).2.1.length =
      (putGo strCmp dotDat (fun v : Nat => v) 0 [] (fun _ => none) keyK 5
        (none : Option Nat) none none).2.1.length :=
  (claim_C10_overwrite strCmp validComparator_strCmp dotDat
    (fun v : Nat => v) (fun b : Nat => Except.ok b) (fun v => rfl) 0 []
    List.Pairwise.nil (fun _ => none) 0 keyK 5 6).2.1

/-- C3: provided the loop stays within the Index (no out-of-range panic,
compare C1) and every file in range opens, stats and decodes (or is a
skipped directory), `List(offset, limit)` succeeds and returns exactly
the values decoded, in index order, from the Index positions
`offset ≤ i <` bound, where the bound is the raw `limit` itself — an
absolute terminal index, not `offset + limit` — for nonnegative `limit`,
and the full Index length for negative `limit`; the returned `Total` is
the Index length at read time. -/
theorem claim_C3_list_semantics {V E : Type} (fs : String → EntryOutcome V E)
    (index : List String) (offset limit : Int) (hoff : 0 ≤ offset)
    (hsafe : limit ≤ (index.length : Int) ∨ limit ≤ offset)
    (hgood : ∀ nm ∈ listSlice index offset limit, goodEntry (fs nm) = true) :
    listGo fs index offset limit =
      some (Except.ok
        ⟨(listSlice index offset limit).filterMap (fun nm => entryVal (fs nm)),
          offset, limit, index.length⟩) := by
  by_cases hcl : capOf index limit ≤ (index.length : Int)
  · have hloop := listLoop_ok fs index (capOf index limit - offset).toNat
      offset (capOf index limit) [] rfl hoff hcl hgood
    simp only [List.nil_append] at hloop
    simp only [listGo]
    rw [hloop]
    rfl
  · have hlim : ¬ limit < 0 := by
      intro hneg
      apply hcl
      simp [capOf, hneg]
    have hcap : capOf index limit = limit := if_neg hlim
    have hco : capOf index limit ≤ offset := by
      rw [hcap]
      rw [hcap] at hcl
      rcases hsafe with h | h
      · exact absurd h hcl
      · exact h
    have hloop : listLoop fs index (capOf index limit) offset [] =
        some (Except.ok []) := by
      rw [listLoop, dif_neg (show ¬ offset < capOf index limit by omega)]
    have hslice : listSlice index offset limit = [] := by
      unfold listSlice
      apply List.drop_eq_nil_of_le
      rw [List.length_take]
      omega
    simp only [listGo]
    rw [hloop, hslice]
    rfl

/-- C3 witness: a negative limit lists the whole (single-entry) index;
the directory entry is skipped, so the page is empty with `Total = 1`. -/
theorem claim_C3_witness :
    listGo (fun _ => (EntryOutcome.isDir : EntryOutcome Unit Unit))
      [dummyName] 0 (-1) = some (Except.ok ⟨[], 0, -1, 1⟩) := by
  have h := claim_C3_list_semantics
    (fun _ => (EntryOutcome.isDir : EntryOutcome Unit Unit)) [dummyName] 0
    (-1) (le_refl 0) (Or.inl (by norm_num)) (fun nm hnm => rfl)
  simpa [listSlice, capOf, entryVal] using h

end LocalStore

